import Mathlib

/-!
Shallow embedding of the winnowed-minimizer extraction core of
src/src/map/include/commonFunc.hpp (namespace skch::CommonFunc), together
with proofs of the specification's claims about it.

Machine integers are modelled as Nat/Int with explicit reduction modulo
2^64 where the C++ code relies on fixed-width unsigned arithmetic
(hash_t and uint64_t are 64-bit unsigned; offset_t and seqno_t are
signed).  The MurmurHash3-based hasher is an external library call; it is
modelled as an arbitrary deterministic function parameter reduced modulo
2^64, matching the hasher contract (deterministic, fixed width).
-/

namespace Skch

/-- Modelled from the spec: the strand tag (strnd::FWD / strnd::REV) lives
in the repository's base types header, which is not in src/; the spec
describes it as the two-valued tag Forward / Reverse. -/
inductive Strand where
  | FWD : Strand
  | REV : Strand
deriving Repr, DecidableEq, BEq

/-- Modelled from the spec: the MinimizerInfo record lives in the
repository's parameter header, which is not in src/; the spec describes it
as a record of hash, sequence id, window position and strand, where
windowPosition starts at a sentinel 0 and is assigned at emission time. -/
structure MinimizerInfo where
  hash : Nat
  seqId : Int
  wpos : Int
  strand : Strand
deriving Repr, DecidableEq

/-- Modelled from the spec: the comparison operators of MinimizerInfo live
in the repository's parameter header, which is not in src/; the spec
describes structural equality as agreement of hash, sequenceId and strand,
with windowPosition ignored. -/
def minfoEq (a b : MinimizerInfo) : Bool :=
  a.hash == b.hash && a.seqId == b.seqId && a.strand == b.strand

/-- Base complement used by reverseComplement: A maps to T, C maps to G and
conversely; every other byte is left unchanged. -/
def complementBase (base : Char) : Char :=
  if base = 'A' then 'T'
  else if base = 'C' then 'G'
  else if base = 'G' then 'C'
  else if base = 'T' then 'A'
  else base

/-- reverseComplement from commonFunc.hpp: dest[length - i - 1] holds the
complement of src[i], i.e. the complemented sequence written in reverse. -/
def reverseComplement (src : List Char) : List Char :=
  (src.map complementBase).reverse

/-- In-place uppercasing of a single byte: ASCII codes strictly between 96
and 123 (lowercase letters) have 32 subtracted; all other bytes pass
through unchanged. -/
def makeUpperCaseChar (c : Char) : Char :=
  if 96 < c.toNat ∧ c.toNat < 123 then Char.ofNat (c.toNat - 32) else c

/-- makeUpperCase from commonFunc.hpp, applied to the whole buffer. -/
def makeUpperCase (seq : List Char) : List Char :=
  seq.map makeUpperCaseChar

/-- Modelled from the spec: the typedef of hash_t lives in the
repository's headers, which are not in src/; the spec describes the hash as
a fixed-width unsigned integer, modelled here as 64-bit, so the maximum
representable hash value (std::numeric_limits of hash_t) is 2^64 - 1. -/
def hashMax : Nat := 2 ^ 64 - 1

/-- getHash from commonFunc.hpp: the external 128-bit MurmurHash3 output is
reinterpreted as one hash_t value, i.e. truncated to 64 bits.  The hasher
itself is a parameter h (deterministic function of the hashed bytes). -/
def getHash (h : List Char → Nat) (s : List Char) : Nat :=
  h s % 2 ^ 64

/-- Forward hash of the k-mer starting at position i: getHash(seq + i, k). -/
def hashFwd (h : List Char → Nat) (seq : List Char) (k i : Nat) : Nat :=
  getHash h ((seq.drop i).take k)

/-- Backward hash at position i: for alphabet size 4 it is
getHash(seqRev + len - i - k, k) over the reverse-complement buffer; for any
other alphabet it is the sentinel hashMax. -/
def hashBwd (h : List Char → Nat) (seq seqRev : List Char) (k a i : Nat) : Nat :=
  if a = 4 then getHash h ((seqRev.drop (seq.length - i - k)).take k) else hashMax

/-- Canonical hash at position i: the minimum of forward and backward hash. -/
def canonHash (h : List Char → Nat) (seq seqRev : List Char) (k a i : Nat) : Nat :=
  min (hashFwd h seq k i) (hashBwd h seq seqRev k a i)

/-- Canonical strand at position i: FWD when the forward hash is strictly
smaller than the backward hash, REV otherwise. -/
def canonStrand (h : List Char → Nat) (seq seqRev : List Char) (k a i : Nat) : Strand :=
  if hashFwd h seq k i < hashBwd h seq seqRev k a i then Strand.FWD else Strand.REV

/-- One entry of the double-ended queue: the candidate record paired with
the origin position of its k-mer in the sequence. -/
abbrev QEntry := MinimizerInfo × Nat

/-- Working state of the scan: the deque (front at the head of the list)
and the minimizer index being appended to. -/
abbrev QState := List QEntry × List MinimizerInfo

/-- Drop the longest suffix whose elements satisfy p; this is the effect of
the C++ loop popping from the back of the deque while the back satisfies p. -/
def dropLastWhile (p : QEntry → Bool) (l : List QEntry) : List QEntry :=
  (l.reverse.dropWhile p).reverse

/-- Front eviction at position i: pop from the front while the front's
origin position is at most i - windowSize. -/
def evictFront (i w : Nat) (Q : List QEntry) : List QEntry :=
  Q.dropWhile (fun p => decide ((p.2 : Int) ≤ (i : Int) - (w : Int)))

/-- Back eviction: pop from the back while the back's hash is at least the
incoming candidate's hash. -/
def evictBack (currentKmer : Nat) (Q : List QEntry) : List QEntry :=
  dropLastWhile (fun p => decide (currentKmer ≤ p.1.hash)) Q

/-- Emission part of the loop body for a valid window: the front of the
deque is saved if the index is empty or its back is structurally different
from the front; saving first assigns wpos on the stored front and then
appends that same updated record to the index. -/
def emitStep (currentWindowId : Int) (idx : List MinimizerInfo)
    (Q : List QEntry) : QState :=
  match Q with
  | [] => ([], idx)
  | f :: rest =>
    let doEmit :=
      match idx.getLast? with
      | none => true
      | some b => ! minfoEq b f.1
    if doEmit then
      let fin : QEntry := ({ f.1 with wpos := currentWindowId }, f.2)
      (fin :: rest, idx ++ [fin.1])
    else
      (f :: rest, idx)

/-- Body of the loop of addMinimizers at position i, acting on the deque
and the index.  Mirrors commonFunc.hpp lines 125-179: compute forward and
backward hashes, skip symmetric k-mers, evict front and back, push the new
candidate, and for a valid window emit the front unless it structurally
equals the back of the index. -/
def minimizerStep (h : List Char → Nat) (seq seqRev : List Char)
    (kmerSize windowSize alphabetSize : Nat) (seqCounter : Int)
    (st : QState) (i : Nat) : QState :=
  let currentWindowId : Int := (i : Int) - (windowSize : Int) + 1
  let hF := hashFwd h seq kmerSize i
  let hB := hashBwd h seq seqRev kmerSize alphabetSize i
  if hB = hF then
    st
  else
    let currentKmer := min hF hB
    let currentStrand := if hF < hB then Strand.FWD else Strand.REV
    let Q2 := evictBack currentKmer (evictFront i windowSize st.1)
    let Q3 := Q2 ++ [(⟨currentKmer, seqCounter, 0, currentStrand⟩, i)]
    if 0 ≤ currentWindowId then
      emitStep currentWindowId st.2 Q3
    else
      (Q3, st.2)

/-- Number of loop iterations of addMinimizers: the loop runs for
0 <= i < len - kmerSize + 1 over signed offsets, i.e. max(0, len - k + 1)
iterations, which over Nat is len + 1 - k. -/
def numPositions (len k : Nat) : Nat := len + 1 - k

/-- State after scanning the first n positions, starting from an empty
deque and the caller's index. -/
def minimizerScan (h : List Char → Nat) (seq seqRev : List Char)
    (kmerSize windowSize alphabetSize : Nat) (seqCounter : Int)
    (idx0 : List MinimizerInfo) (n : Nat) : QState :=
  (List.range n).foldl (minimizerStep h seq seqRev kmerSize windowSize alphabetSize seqCounter)
    ([], idx0)

/-- addMinimizers from commonFunc.hpp: uppercase the sequence, build the
reverse complement when the alphabet size is 4 (otherwise the buffer is
allocated but never written or read; it is modelled by a dummy buffer),
then run the scan over all candidate positions and return the extended
index. -/
def addMinimizers (h : List Char → Nat) (minimizerIndex : List MinimizerInfo)
    (seq : List Char) (kmerSize windowSize alphabetSize : Nat)
    (seqCounter : Int) : List MinimizerInfo :=
  let sequ := makeUpperCase seq
  let seqRev := if alphabetSize = 4 then reverseComplement sequ
                else List.replicate sequ.length 'N'
  (minimizerScan h sequ seqRev kmerSize windowSize alphabetSize seqCounter
    minimizerIndex (numPositions sequ.length kmerSize)).2

/-- Number of loop iterations whose window id is valid (currentWindowId at
least 0), i.e. the number of emittable windows. -/
def numValidWindows (len k w : Nat) : Nat :=
  ((List.range (numPositions len k)).filter
    (fun i : Nat => decide (0 ≤ (i : Int) - (w : Int) + 1))).length

/-- Result of in.tellg() after opening path f at end in binary mode.
Modelled from C++ iostream semantics: the filesystem is a map from paths to
an optional end offset; a path that fails to open leaves the stream in a
failed state, in which tellg() reports pos_type(-1). -/
def tellgResult (fs : String → Option Nat) (f : String) : Int :=
  match fs f with
  | some n => (n : Int)
  | none => -1

/-- Conversion of a signed stream offset to uint64_t: reduction modulo
2^64 of the two's-complement value. -/
def castU64 (x : Int) : Nat :=
  (x % (2 ^ 64 : Int)).toNat

/-- getReferenceSize from commonFunc.hpp: open every path at end, convert
the reported offset to uint64_t and accumulate with wrapping 64-bit
addition. -/
def getReferenceSize (fs : String → Option Nat) (refSequences : List String) : Nat :=
  refSequences.foldl (fun count f => (count + castU64 (tellgResult fs f)) % 2 ^ 64) 0

/-- A small concrete deterministic hasher used for concrete runs: the
base-256 value of the byte string. -/
def demoHash (s : List Char) : Nat :=
  s.foldl (fun acc c => acc * 256 + c.toNat) 0

/-- A deterministic hasher that always attains the maximum representable
hash value; used to exhibit collisions with the protein-mode sentinel. -/
def maxConstHash (_ : List Char) : Nat :=
  hashMax

/-! ### Generic list lemmas about dropWhile and dropLastWhile -/

theorem mem_of_mem_dropWhile {α : Type} {p : α → Bool} {l : List α} {x : α}
    (hx : x ∈ l.dropWhile p) : x ∈ l := by
  induction l with
  | nil => simp [List.dropWhile] at hx
  | cons a t ih =>
    cases hpa : p a with
    | true =>
      simp only [List.dropWhile, hpa] at hx
      exact List.mem_cons_of_mem a (ih hx)
    | false =>
      simp only [List.dropWhile, hpa] at hx
      exact hx

theorem mem_dropWhile_of_false {α : Type} {p : α → Bool} {l : List α} {x : α}
    (hpx : p x = false) (hx : x ∈ l) : x ∈ l.dropWhile p := by
  induction l with
  | nil => simp at hx
  | cons a t ih =>
    cases hpa : p a with
    | true =>
      simp only [List.dropWhile, hpa]
      rcases List.mem_cons.mp hx with rfl | hxt
      · rw [hpa] at hpx; cases hpx
      · exact ih hxt
    | false =>
      simp only [List.dropWhile, hpa]
      exact hx

theorem pairwise_dropWhile {α : Type} {r : α → α → Prop} {p : α → Bool} {l : List α}
    (hl : l.Pairwise r) : (l.dropWhile p).Pairwise r := by
  induction l with
  | nil => simp [List.dropWhile]
  | cons a t ih =>
    rcases List.pairwise_cons.mp hl with ⟨hat, ht⟩
    cases hpa : p a with
    | true =>
      simp only [List.dropWhile, hpa]
      exact ih ht
    | false =>
      simp only [List.dropWhile, hpa]
      exact hl

theorem dropWhile_all_false {α : Type} {r : α → α → Prop} {p : α → Bool} {l : List α}
    (hl : l.Pairwise r) (hmono : ∀ x y, r x y → p y = true → p x = true) :
    ∀ x ∈ l.dropWhile p, p x = false := by
  induction l with
  | nil => simp [List.dropWhile]
  | cons a t ih =>
    rcases List.pairwise_cons.mp hl with ⟨hat, ht⟩
    cases hpa : p a with
    | true =>
      simp only [List.dropWhile, hpa]
      exact ih ht
    | false =>
      simp only [List.dropWhile, hpa]
      intro x hx
      rcases List.mem_cons.mp hx with rfl | hxt
      · exact hpa
      · rcases hqx : p x with _ | _
        · rfl
        · exact absurd (hmono a x (hat x hxt) hqx) (by simp [hpa])

theorem mem_of_mem_dropLastWhile {p : QEntry → Bool} {l : List QEntry} {x : QEntry}
    (hx : x ∈ dropLastWhile p l) : x ∈ l := by
  unfold dropLastWhile at hx
  rw [List.mem_reverse] at hx
  exact List.mem_reverse.mp (mem_of_mem_dropWhile hx)

theorem mem_dropLastWhile_of_false {p : QEntry → Bool} {l : List QEntry} {x : QEntry}
    (hpx : p x = false) (hx : x ∈ l) : x ∈ dropLastWhile p l := by
  unfold dropLastWhile
  rw [List.mem_reverse]
  exact mem_dropWhile_of_false hpx (List.mem_reverse.mpr hx)

theorem pairwise_dropLastWhile {r : QEntry → QEntry → Prop} {p : QEntry → Bool}
    {l : List QEntry} (hl : l.Pairwise r) : (dropLastWhile p l).Pairwise r := by
  unfold dropLastWhile
  rw [List.pairwise_reverse]
  exact pairwise_dropWhile (List.pairwise_reverse.mpr hl)

theorem dropLastWhile_all_false {r : QEntry → QEntry → Prop} {p : QEntry → Bool}
    {l : List QEntry} (hl : l.Pairwise r)
    (hmono : ∀ x y, r x y → p x = true → p y = true) :
    ∀ x ∈ dropLastWhile p l, p x = false := by
  intro x hx
  unfold dropLastWhile at hx
  rw [List.mem_reverse] at hx
  refine dropWhile_all_false (r := fun u v => r v u) ?_ ?_ x hx
  · exact List.pairwise_reverse.mpr hl
  · intro u v huv hpv
    exact hmono v u huv hpv

/-! ### Reduction lemmas for the scan -/

theorem minimizerScan_succ (h : List Char → Nat) (seq seqRev : List Char)
    (k w a : Nat) (sc : Int) (idx0 : List MinimizerInfo) (n : Nat) :
    minimizerScan h seq seqRev k w a sc idx0 (n + 1) =
      minimizerStep h seq seqRev k w a sc (minimizerScan h seq seqRev k w a sc idx0 n) n := by
  unfold minimizerScan
  rw [List.range_succ, List.foldl_append, List.foldl_cons, List.foldl_nil]

theorem minimizerStep_sym (h : List Char → Nat) (seq seqRev : List Char)
    (k w a : Nat) (sc : Int) (st : QState) (i : Nat)
    (hsym : hashBwd h seq seqRev k a i = hashFwd h seq k i) :
    minimizerStep h seq seqRev k w a sc st i = st := by
  unfold minimizerStep
  rw [if_pos hsym]

theorem minimizerStep_nonsym (h : List Char → Nat) (seq seqRev : List Char)
    (k w a : Nat) (sc : Int) (st : QState) (i : Nat)
    (hns : hashBwd h seq seqRev k a i ≠ hashFwd h seq k i) :
    minimizerStep h seq seqRev k w a sc st i =
      (if 0 ≤ (i : Int) - (w : Int) + 1 then
        emitStep ((i : Int) - (w : Int) + 1) st.2
          (evictBack (canonHash h seq seqRev k a i) (evictFront i w st.1) ++
            [(⟨canonHash h seq seqRev k a i, sc, 0, canonStrand h seq seqRev k a i⟩, i)])
      else
        (evictBack (canonHash h seq seqRev k a i) (evictFront i w st.1) ++
          [(⟨canonHash h seq seqRev k a i, sc, 0, canonStrand h seq seqRev k a i⟩, i)], st.2)) := by
  unfold minimizerStep
  rw [if_neg hns]
  rfl

theorem emitStep_cases (cw : Int) (idx : List MinimizerInfo) (f : QEntry)
    (rest : List QEntry) :
    (emitStep cw idx (f :: rest) =
        (({ f.1 with wpos := cw }, f.2) :: rest, idx ++ [{ f.1 with wpos := cw }]) ∧
      (idx.getLast? = none ∨ ∃ b, idx.getLast? = some b ∧ minfoEq b f.1 = false)) ∨
    (emitStep cw idx (f :: rest) = (f :: rest, idx) ∧
      ∃ b, idx.getLast? = some b ∧ minfoEq b f.1 = true) := by
  unfold emitStep
  cases hlast : idx.getLast? with
  | none =>
    left
    exact ⟨by simp, Or.inl rfl⟩
  | some b =>
    cases hbe : minfoEq b f.1 with
    | false => exact Or.inl ⟨by simp [hbe], Or.inr ⟨b, rfl, hbe⟩⟩
    | true => exact Or.inr ⟨by simp [hbe], b, rfl, hbe⟩

/-! ### The deque invariant -/

/-- The k-mer at position i is non-symmetric: its backward hash differs
from its forward hash, so the loop body forms a candidate at i. -/
abbrev notSym (h : List Char → Nat) (seq seqRev : List Char) (k a i : Nat) : Prop :=
  hashBwd h seq seqRev k a i ≠ hashFwd h seq k i

/-- Ordering along the deque from front to back: strictly increasing origin
position and strictly increasing hash. -/
abbrev qRel (p q : QEntry) : Prop := p.2 < q.2 ∧ p.1.hash < q.1.hash

/-- What every deque entry satisfies after the first n positions have been
scanned: its origin is a scanned non-symmetric position, and the stored
record carries that position's canonical hash, canonical strand and the
scan's sequence id. -/
abbrev entryOk (h : List Char → Nat) (seq seqRev : List Char) (k a : Nat)
    (sc : Int) (n : Nat) (p : QEntry) : Prop :=
  p.2 < n ∧ notSym h seq seqRev k a p.2 ∧
  p.1.hash = canonHash h seq seqRev k a p.2 ∧
  p.1.strand = canonStrand h seq seqRev k a p.2 ∧
  p.1.seqId = sc

/-- Invariant of the deque after the first n positions have been scanned:
entries are well-formed candidates of scanned positions, the deque is
strictly increasing in position and in hash from front to back, and every
non-symmetric position that can still fall inside a window is dominated by
some entry at or after it with a hash no larger than its canonical hash. -/
structure ScanInv (h : List Char → Nat) (seq seqRev : List Char) (k w a : Nat)
    (sc : Int) (n : Nat) (Q : List QEntry) : Prop where
  sound : ∀ p ∈ Q, entryOk h seq seqRev k a sc n p
  incr : Q.Pairwise qRel
  covered : ∀ j : Nat, j < n → (n : Int) - (w : Int) ≤ (j : Int) →
    notSym h seq seqRev k a j →
    ∃ p ∈ Q, j ≤ p.2 ∧ p.1.hash ≤ canonHash h seq seqRev k a j

theorem scanInv_zero (h : List Char → Nat) (seq seqRev : List Char)
    (k w a : Nat) (sc : Int) :
    ScanInv h seq seqRev k w a sc 0 [] := by
  refine ⟨?_, List.Pairwise.nil, ?_⟩
  · intro p hp; cases hp
  · intro j hj; omega

theorem scanInv_symStep (h : List Char → Nat) (seq seqRev : List Char)
    (k w a : Nat) (sc : Int) (n : Nat) (Q : List QEntry)
    (hinv : ScanInv h seq seqRev k w a sc n Q)
    (hsym : ¬ notSym h seq seqRev k a n) :
    ScanInv h seq seqRev k w a sc (n + 1) Q := by
  refine ⟨?_, hinv.incr, ?_⟩
  · intro p hp
    obtain ⟨h1, h2, h3, h4, h5⟩ := hinv.sound p hp
    exact ⟨Nat.lt_succ_of_lt h1, h2, h3, h4, h5⟩
  · intro j hj hjw hnsj
    rcases Nat.lt_succ_iff_lt_or_eq.mp hj with hj' | rfl
    · exact hinv.covered j hj' (by omega) hnsj
    · exact absurd hnsj hsym

theorem scanInv_replaceHead (h : List Char → Nat) (seq seqRev : List Char)
    (k w a : Nat) (sc : Int) (n : Nat) (f f' : QEntry) (rest : List QEntry)
    (hinv : ScanInv h seq seqRev k w a sc n (f :: rest))
    (hh : f'.1.hash = f.1.hash) (hs : f'.1.strand = f.1.strand)
    (hid : f'.1.seqId = f.1.seqId) (hp2 : f'.2 = f.2) :
    ScanInv h seq seqRev k w a sc n (f' :: rest) := by
  refine ⟨?_, ?_, ?_⟩
  · intro p hp
    rcases List.mem_cons.mp hp with rfl | hmem
    · have hf := hinv.sound f (List.mem_cons_self _ _)
      exact ⟨by rw [hp2]; exact hf.1, by rw [hp2]; exact hf.2.1,
        by rw [hh, hp2]; exact hf.2.2.1, by rw [hs, hp2]; exact hf.2.2.2.1,
        by rw [hid]; exact hf.2.2.2.2⟩
    · exact hinv.sound p (List.mem_cons_of_mem _ hmem)
  · rw [List.pairwise_cons]
    have hi := List.pairwise_cons.mp hinv.incr
    refine ⟨?_, hi.2⟩
    intro q hq
    obtain ⟨hq1, hq2⟩ := hi.1 q hq
    exact ⟨by rw [hp2]; exact hq1, by rw [hh]; exact hq2⟩
  · intro j hj hjw hnsj
    obtain ⟨p, hpmem, hjp, hph⟩ := hinv.covered j hj hjw hnsj
    rcases List.mem_cons.mp hpmem with rfl | hmem
    · exact ⟨f', List.mem_cons_self _ _, by rw [hp2]; exact hjp, by rw [hh]; exact hph⟩
    · exact ⟨p, List.mem_cons_of_mem _ hmem, hjp, hph⟩

theorem scanInv_nonsymStep (h : List Char → Nat) (seq seqRev : List Char)
    (k w a : Nat) (sc : Int) (st : QState) (i : Nat) (hw : 1 ≤ w)
    (hinv : ScanInv h seq seqRev k w a sc i st.1)
    (hns : notSym h seq seqRev k a i) :
    ∃ f rest,
      (minimizerStep h seq seqRev k w a sc st i).1 = f :: rest ∧
      ScanInv h seq seqRev k w a sc (i + 1) (f :: rest) ∧
      (i : Int) - (w : Int) < (f.2 : Int) ∧ f.2 ≤ i ∧
      f.1.hash = canonHash h seq seqRev k a f.2 ∧
      notSym h seq seqRev k a f.2 ∧
      (∀ q ∈ f :: rest, f.1.hash ≤ q.1.hash) ∧
      (¬ 0 ≤ (i : Int) - (w : Int) + 1 →
        (minimizerStep h seq seqRev k w a sc st i).2 = st.2) ∧
      (0 ≤ (i : Int) - (w : Int) + 1 →
        ((minimizerStep h seq seqRev k w a sc st i).2 = st.2 ++ [f.1] ∧
          f.1.wpos = (i : Int) - (w : Int) + 1) ∨
        ((minimizerStep h seq seqRev k w a sc st i).2 = st.2 ∧
          ∃ b, st.2.getLast? = some b ∧ minfoEq b f.1 = true)) := by
  set ck := canonHash h seq seqRev k a i with hck
  set cs := canonStrand h seq seqRev k a i with hcs
  set Q1 := evictFront i w st.1 with hQ1
  set Q2 := evictBack ck Q1 with hQ2
  set newE : QEntry := (⟨ck, sc, 0, cs⟩, i) with hnewE
  set Q3 := Q2 ++ [newE] with hQ3
  -- facts about the front-evicted queue
  have hQ1mem : ∀ p ∈ Q1, p ∈ st.1 := by
    intro p hp
    rw [hQ1] at hp
    exact mem_of_mem_dropWhile hp
  have hQ1pair : Q1.Pairwise qRel := by
    rw [hQ1]
    exact pairwise_dropWhile hinv.incr
  have hQ1win : ∀ p ∈ Q1, (i : Int) - (w : Int) < (p.2 : Int) := by
    intro p hp
    rw [hQ1] at hp
    unfold evictFront at hp
    have hmono1 : ∀ x y : QEntry, qRel x y →
        (fun q : QEntry => decide ((q.2 : Int) ≤ (i : Int) - (w : Int))) y = true →
        (fun q : QEntry => decide ((q.2 : Int) ≤ (i : Int) - (w : Int))) x = true := by
      intro x y hxy hy
      simp only [decide_eq_true_eq] at hy ⊢
      obtain ⟨h1, _⟩ := hxy
      omega
    have hfalse := dropWhile_all_false hinv.incr hmono1 p hp
    simp only [decide_eq_false_iff_not] at hfalse
    omega
  -- facts about the back-evicted queue
  have hQ2mem : ∀ p ∈ Q2, p ∈ Q1 := by
    intro p hp
    rw [hQ2] at hp
    exact mem_of_mem_dropLastWhile hp
  have hQ2pair : Q2.Pairwise qRel := by
    rw [hQ2]
    exact pairwise_dropLastWhile hQ1pair
  have hQ2hash : ∀ p ∈ Q2, p.1.hash < ck := by
    intro p hp
    rw [hQ2] at hp
    unfold evictBack at hp
    have hmono2 : ∀ x y : QEntry, qRel x y →
        (fun q : QEntry => decide (ck ≤ q.1.hash)) x = true →
        (fun q : QEntry => decide (ck ≤ q.1.hash)) y = true := by
      intro x y hxy hx
      simp only [decide_eq_true_eq] at hx ⊢
      obtain ⟨_, h2⟩ := hxy
      omega
    have hfalse := dropLastWhile_all_false hQ1pair hmono2 p hp
    simp only [decide_eq_false_iff_not] at hfalse
    omega
  have hsound2 : ∀ p ∈ Q2, entryOk h seq seqRev k a sc i p := fun p hp =>
    hinv.sound p (hQ1mem p (hQ2mem p hp))
  -- the pushed queue
  have hQ3pair : Q3.Pairwise qRel := by
    rw [hQ3, List.pairwise_append]
    refine ⟨hQ2pair, List.pairwise_singleton _ _, ?_⟩
    intro x hx y hy
    rw [List.mem_singleton] at hy
    subst hy
    exact ⟨(hsound2 x hx).1, hQ2hash x hx⟩
  have hQ3sound : ∀ p ∈ Q3, entryOk h seq seqRev k a sc (i + 1) p := by
    intro p hp
    rw [hQ3, List.mem_append] at hp
    rcases hp with hp | hp
    · obtain ⟨h1, h2, h3, h4, h5⟩ := hsound2 p hp
      exact ⟨Nat.lt_succ_of_lt h1, h2, h3, h4, h5⟩
    · rw [List.mem_singleton] at hp
      subst hp
      exact ⟨Nat.lt_succ_self i, hns, rfl, rfl, rfl⟩
  have hQ3win : ∀ p ∈ Q3, (i : Int) - (w : Int) < (p.2 : Int) := by
    intro p hp
    rw [hQ3, List.mem_append] at hp
    rcases hp with hp | hp
    · exact hQ1win p (hQ2mem p hp)
    · rw [List.mem_singleton] at hp
      subst hp
      simp only [hnewE]
      omega
  have hQ3cov : ∀ j : Nat, j < i + 1 → ((i : Nat) + 1 : Int) - (w : Int) ≤ (j : Int) →
      notSym h seq seqRev k a j →
      ∃ p ∈ Q3, j ≤ p.2 ∧ p.1.hash ≤ canonHash h seq seqRev k a j := by
    intro j hj hjw hnsj
    by_cases hji : j = i
    · subst hji
      refine ⟨newE, ?_, ?_, ?_⟩
      · rw [hQ3, List.mem_append]
        exact Or.inr (List.mem_singleton.mpr rfl)
      · simp [hnewE]
      · simp only [hnewE]
        rw [hck]
    · have hj' : j < i := by omega
      have hjw' : (i : Int) - (w : Int) ≤ (j : Int) := by omega
      obtain ⟨p, hpQ, hjp, hph⟩ := hinv.covered j hj' hjw' hnsj
      have hpQ1 : p ∈ Q1 := by
        rw [hQ1]
        unfold evictFront
        refine mem_dropWhile_of_false ?_ hpQ
        simp only [decide_eq_false_iff_not]
        omega
      by_cases hpQ2 : p ∈ Q2
      · exact ⟨p, by rw [hQ3, List.mem_append]; exact Or.inl hpQ2, hjp, hph⟩
      · have hckp : ck ≤ p.1.hash := by
          by_contra hlt
          push_neg at hlt
          refine hpQ2 ?_
          rw [hQ2]
          unfold evictBack
          refine mem_dropLastWhile_of_false ?_ hpQ1
          simp only [decide_eq_false_iff_not]
          omega
        refine ⟨newE, ?_, ?_, ?_⟩
        · rw [hQ3, List.mem_append]
          exact Or.inr (List.mem_singleton.mpr rfl)
        · simp only [hnewE]
          omega
        · simp only [hnewE]
          exact le_trans hckp hph
  have hinv3 : ScanInv h seq seqRev k w a sc (i + 1) Q3 := ⟨hQ3sound, hQ3pair, hQ3cov⟩
  -- extract the head of the pushed queue
  obtain ⟨f0, rest0, hQ3head⟩ : ∃ f rest, Q3 = f :: rest := by
    rw [hQ3]
    cases Q2 with
    | nil => exact ⟨newE, [], rfl⟩
    | cons x t => exact ⟨x, t ++ [newE], rfl⟩
  have hf0mem : f0 ∈ Q3 := by
    rw [hQ3head]
    exact List.mem_cons_self _ _
  have hheadmin : ∀ q ∈ f0 :: rest0, f0.1.hash ≤ q.1.hash := by
    have hpc := List.pairwise_cons.mp (hQ3head ▸ hQ3pair)
    intro q hq
    rcases List.mem_cons.mp hq with rfl | hq'
    · exact le_refl _
    · exact le_of_lt (hpc.1 q hq').2
  have hf0ok := hQ3sound f0 hf0mem
  have hf0win := hQ3win f0 hf0mem
  have hinv3' : ScanInv h seq seqRev k w a sc (i + 1) (f0 :: rest0) := hQ3head ▸ hinv3
  -- branch on the window validity and the emission guard
  rw [minimizerStep_nonsym h seq seqRev k w a sc st i hns]
  rw [← hck, ← hcs, ← hQ1, ← hQ2, ← hnewE, ← hQ3]
  by_cases hwin : 0 ≤ (i : Int) - (w : Int) + 1
  · rw [if_pos hwin, hQ3head]
    rcases emitStep_cases ((i : Int) - (w : Int) + 1) st.2 f0 rest0 with
      ⟨hemit, _⟩ | ⟨hsupp, b, hlast, hbeq⟩
    · refine ⟨({ f0.1 with wpos := (i : Int) - (w : Int) + 1 }, f0.2), rest0, ?_, ?_, ?_, ?_, ?_, ?_, ?_, ?_, ?_⟩
      · rw [hemit]
      · exact scanInv_replaceHead h seq seqRev k w a sc (i + 1) f0 _ rest0 hinv3' rfl rfl rfl rfl
      · exact hf0win
      · exact Nat.lt_succ_iff.mp hf0ok.1
      · exact hf0ok.2.2.1
      · exact hf0ok.2.1
      · intro q hq
        rcases List.mem_cons.mp hq with rfl | hq'
        · exact le_refl _
        · exact hheadmin q (List.mem_cons_of_mem _ hq')
      · intro hnot
        exact absurd hwin hnot
      · intro _
        left
        constructor
        · rw [hemit]
        · rfl
    · refine ⟨f0, rest0, ?_, hinv3', hf0win, Nat.lt_succ_iff.mp hf0ok.1,
        hf0ok.2.2.1, hf0ok.2.1, hheadmin, ?_, ?_⟩
      · rw [hsupp]
      · intro hnot
        exact absurd hwin hnot
      · intro _
        right
        exact ⟨by rw [hsupp], b, hlast, hbeq⟩
  · rw [if_neg hwin, hQ3head]
    exact ⟨f0, rest0, rfl, hinv3', hf0win, Nat.lt_succ_iff.mp hf0ok.1,
      hf0ok.2.2.1, hf0ok.2.1, hheadmin, fun _ => rfl, fun hc => absurd hc hwin⟩

theorem minimizerScan_zero (h : List Char → Nat) (seq seqRev : List Char)
    (k w a : Nat) (sc : Int) (idx0 : List MinimizerInfo) :
    minimizerScan h seq seqRev k w a sc idx0 0 = ([], idx0) := rfl

theorem minimizerScan_inv (h : List Char → Nat) (seq seqRev : List Char)
    (k w a : Nat) (sc : Int) (idx0 : List MinimizerInfo) (hw : 1 ≤ w) (n : Nat) :
    ScanInv h seq seqRev k w a sc n (minimizerScan h seq seqRev k w a sc idx0 n).1 := by
  induction n with
  | zero =>
    rw [minimizerScan_zero]
    exact scanInv_zero h seq seqRev k w a sc
  | succ n ih =>
    rw [minimizerScan_succ]
    by_cases hns : notSym h seq seqRev k a n
    · obtain ⟨f, rest, hq, hinv', _⟩ :=
        scanInv_nonsymStep h seq seqRev k w a sc
          (minimizerScan h seq seqRev k w a sc idx0 n) n hw ih hns
      rw [hq]
      exact hinv'
    · have hsym : hashBwd h seq seqRev k a n = hashFwd h seq k n := by
        by_contra hc
        exact hns hc
      rw [minimizerStep_sym h seq seqRev k w a sc _ n hsym]
      exact scanInv_symStep h seq seqRev k w a sc n _ ih hns

/-- C1 (amended): for every valid window whose closing position i is
non-symmetric, after processing position i the front of the deque is a
candidate whose origin lies in the window and whose hash is the minimum
canonical hash over all non-symmetric origins in the window, and the step
either appends exactly that record to the index or suppresses it because
the index's last record is structurally equal to it.  (Windows whose
closing position is symmetric produce no emission or suppression at all;
see the counterexample.) -/
theorem minimizer_window_min (h : List Char → Nat) (seq seqRev : List Char)
    (k w a : Nat) (sc : Int) (idx0 : List MinimizerInfo) (i : Nat)
    (hw : 1 ≤ w)
    (hvalid : 0 ≤ (i : Int) - (w : Int) + 1)
    (hns : notSym h seq seqRev k a i) :
    ∃ f rest,
      (minimizerScan h seq seqRev k w a sc idx0 (i + 1)).1 = f :: rest ∧
      ((i : Int) - (w : Int) < (f.2 : Int) ∧ f.2 ≤ i ∧
        notSym h seq seqRev k a f.2 ∧
        f.1.hash = canonHash h seq seqRev k a f.2) ∧
      (∀ j : Nat, j ≤ i → (i : Int) - (w : Int) < (j : Int) →
        notSym h seq seqRev k a j →
        f.1.hash ≤ canonHash h seq seqRev k a j) ∧
      ((minimizerScan h seq seqRev k w a sc idx0 (i + 1)).2
          = (minimizerScan h seq seqRev k w a sc idx0 i).2 ++ [f.1] ∨
        ((minimizerScan h seq seqRev k w a sc idx0 (i + 1)).2
            = (minimizerScan h seq seqRev k w a sc idx0 i).2 ∧
          ∃ b, (minimizerScan h seq seqRev k w a sc idx0 i).2.getLast? = some b ∧
            minfoEq b f.1 = true)) := by
  obtain ⟨f, rest, hq, hinv', hwin, hle, hhash, hns2, hmin, _, hidxpos⟩ :=
    scanInv_nonsymStep h seq seqRev k w a sc
      (minimizerScan h seq seqRev k w a sc idx0 i) i hw
      (minimizerScan_inv h seq seqRev k w a sc idx0 hw i) hns
  refine ⟨f, rest, ?_, ⟨hwin, hle, hns2, hhash⟩, ?_, ?_⟩
  · rw [minimizerScan_succ]
    exact hq
  · intro j hj hjw hnsj
    obtain ⟨p, hpmem, _, hph⟩ :=
      hinv'.covered j (by omega) (by omega) hnsj
    exact le_trans (hmin p hpmem) hph
  · rw [minimizerScan_succ]
    rcases hidxpos hvalid with ⟨hemit, _⟩ | ⟨hsupp, b, hlast, hbeq⟩
    · exact Or.inl hemit
    · exact Or.inr ⟨hsupp, b, hlast, hbeq⟩

/-- Witness for C1 (amended) at a concrete input: sequence AC with reverse
complement GT, k = 1, w = 1, nucleotide alphabet, window 0 closing at the
non-symmetric position 0. -/
theorem minimizer_window_min_witness :
    (1 ≤ 1) ∧ (0 ≤ ((0 : Nat) : Int) - ((1 : Nat) : Int) + 1) ∧
    notSym demoHash ['A', 'C'] ['G', 'T'] 1 4 0 ∧
    (∃ f rest,
      (minimizerScan demoHash ['A', 'C'] ['G', 'T'] 1 1 4 0 [] (0 + 1)).1 = f :: rest ∧
      (((0 : Nat) : Int) - ((1 : Nat) : Int) < (f.2 : Int) ∧ f.2 ≤ 0 ∧
        notSym demoHash ['A', 'C'] ['G', 'T'] 1 4 f.2 ∧
        f.1.hash = canonHash demoHash ['A', 'C'] ['G', 'T'] 1 4 f.2) ∧
      (∀ j : Nat, j ≤ 0 → ((0 : Nat) : Int) - ((1 : Nat) : Int) < (j : Int) →
        notSym demoHash ['A', 'C'] ['G', 'T'] 1 4 j →
        f.1.hash ≤ canonHash demoHash ['A', 'C'] ['G', 'T'] 1 4 j) ∧
      ((minimizerScan demoHash ['A', 'C'] ['G', 'T'] 1 1 4 0 [] (0 + 1)).2
          = (minimizerScan demoHash ['A', 'C'] ['G', 'T'] 1 1 4 0 [] 0).2 ++ [f.1] ∨
        ((minimizerScan demoHash ['A', 'C'] ['G', 'T'] 1 1 4 0 [] (0 + 1)).2
            = (minimizerScan demoHash ['A', 'C'] ['G', 'T'] 1 1 4 0 [] 0).2 ∧
          ∃ b, (minimizerScan demoHash ['A', 'C'] ['G', 'T'] 1 1 4 0 [] 0).2.getLast? = some b ∧
            minfoEq b f.1 = true))) :=
  ⟨le_refl 1, by decide, by decide,
    minimizer_window_min demoHash ['A', 'C'] ['G', 'T'] 1 1 4 0 [] 0
      (le_refl 1) (by decide) (by decide)⟩

/-- Counterexample to C1 as stated: for the sequence ACGT with k = 4 and
w = 1 (nucleotide alphabet) there is exactly one valid window, but its only
k-mer is its own reverse complement, so the loop body skips the emission
branch entirely: no record is emitted and, the index being empty, none is
suppressed as a duplicate of a most recent emission either.  Thus not every
valid window produces an emission or suppression. -/
theorem minimizer_window_min_counterexample :
    addMinimizers demoHash [] ['A', 'C', 'G', 'T'] 4 1 4 0 = [] ∧
    numValidWindows 4 4 1 = 1 := by
  constructor
  · decide
  · decide

/-! ### Deduplication of consecutive emissions -/

theorem minfoEq_set_wpos (b r : MinimizerInfo) (x : Int) :
    minfoEq b { r with wpos := x } = minfoEq b r := rfl

theorem emitStep_idx (cw : Int) (idx : List MinimizerInfo) (Q : List QEntry) :
    (emitStep cw idx Q).2 = idx ∨
    ∃ r, (emitStep cw idx Q).2 = idx ++ [r] ∧
      (idx.getLast? = none ∨ ∃ b, idx.getLast? = some b ∧ minfoEq b r = false) := by
  cases Q with
  | nil => exact Or.inl rfl
  | cons f rest =>
    rcases emitStep_cases cw idx f rest with ⟨hemit, hguard⟩ | ⟨hsupp, _⟩
    · right
      refine ⟨{ f.1 with wpos := cw }, by rw [hemit], ?_⟩
      rcases hguard with hnone | ⟨b, hb, hbe⟩
      · exact Or.inl hnone
      · exact Or.inr ⟨b, hb, by rw [minfoEq_set_wpos]; exact hbe⟩
    · left
      rw [hsupp]

theorem minimizerStep_idx (h : List Char → Nat) (seq seqRev : List Char)
    (k w a : Nat) (sc : Int) (st : QState) (i : Nat) :
    (minimizerStep h seq seqRev k w a sc st i).2 = st.2 ∨
    ∃ r, (minimizerStep h seq seqRev k w a sc st i).2 = st.2 ++ [r] ∧
      (st.2.getLast? = none ∨ ∃ b, st.2.getLast? = some b ∧ minfoEq b r = false) := by
  by_cases hns : hashBwd h seq seqRev k a i = hashFwd h seq k i
  · rw [minimizerStep_sym h seq seqRev k w a sc st i hns]
    exact Or.inl rfl
  · rw [minimizerStep_nonsym h seq seqRev k w a sc st i hns]
    by_cases hwin : 0 ≤ (i : Int) - (w : Int) + 1
    · rw [if_pos hwin]
      exact emitStep_idx _ _ _
    · rw [if_neg hwin]
      exact Or.inl rfl

/-- The shape of the index during the scan: the caller's records followed
by the scan's appended records, among which no two consecutive ones are
structurally equal. -/
def dedupChain (idx0 idx : List MinimizerInfo) : Prop :=
  ∃ app, idx = idx0 ++ app ∧ List.Chain' (fun r s => minfoEq r s = false) app

theorem dedupChain_step (h : List Char → Nat) (seq seqRev : List Char)
    (k w a : Nat) (sc : Int) (st : QState) (i : Nat)
    (idx0 : List MinimizerInfo) (hd : dedupChain idx0 st.2) :
    dedupChain idx0 (minimizerStep h seq seqRev k w a sc st i).2 := by
  rcases minimizerStep_idx h seq seqRev k w a sc st i with hsame | ⟨r, happ, hguard⟩
  · rw [hsame]
    exact hd
  · obtain ⟨app, hshape, hchain⟩ := hd
    refine ⟨app ++ [r], ?_, ?_⟩
    · rw [happ, hshape, List.append_assoc]
    · rw [List.chain'_append]
      refine ⟨hchain, List.chain'_singleton r, ?_⟩
      intro x hx y hy
      rw [List.head?_cons, Option.mem_some_iff] at hy
      subst hy
      cases app with
      | nil => simp at hx
      | cons a0 t =>
        have hlast : st.2.getLast? = (a0 :: t).getLast? := by
          rw [hshape]
          exact List.getLast?_append_cons idx0 a0 t
        rcases hguard with hnone | ⟨b, hb, hbe⟩
        · rw [hlast] at hnone
          rw [hnone] at hx
          simp at hx
        · rw [hlast] at hb
          rw [hb, Option.mem_some_iff] at hx
          rw [← hx]
          exact hbe

/-- C2: every call of addMinimizers only appends records, and among the
appended records no two consecutive ones are structurally equal in hash,
sequence id and strand. -/
theorem addMinimizers_dedup (h : List Char → Nat) (idx0 : List MinimizerInfo)
    (seq : List Char) (k w a : Nat) (sc : Int) :
    ∃ app, addMinimizers h idx0 seq k w a sc = idx0 ++ app ∧
      List.Chain' (fun r s => minfoEq r s = false) app := by
  have hscan : ∀ seqU seqRevU n, dedupChain idx0
      (minimizerScan h seqU seqRevU k w a sc idx0 n).2 := by
    intro seqU seqRevU n
    induction n with
    | zero => exact ⟨[], by simp [minimizerScan_zero], List.chain'_nil⟩
    | succ n ih =>
      rw [minimizerScan_succ]
      exact dedupChain_step h seqU seqRevU k w a sc _ n idx0 ih
  exact hscan _ _ _

/-! ### C3: emission finalizes the stored queue front -/

theorem append_singleton_cons {α : Type} (l : List α) (y : α) :
    ∃ f rest, l ++ [y] = f :: rest := by
  cases l with
  | nil => exact ⟨y, [], rfl⟩
  | cons x t => exact ⟨x, t ++ [y], rfl⟩

/-- C3 (amended): whenever the loop body changes the index, it appends
exactly one record, and that record is the very info stored at the new
front of the deque: the stored front has had its windowPosition assigned to
the current window id, and the emitted copy is that finalized record.  The
queue's stored candidate does not keep the sentinel windowPosition 0. -/
theorem minimizerStep_finalizes_front (h : List Char → Nat)
    (seq seqRev : List Char) (k w a : Nat) (sc : Int) (st : QState) (i : Nat)
    (hchange : (minimizerStep h seq seqRev k w a sc st i).2 ≠ st.2) :
    ∃ f rest,
      (minimizerStep h seq seqRev k w a sc st i).1 = f :: rest ∧
      (minimizerStep h seq seqRev k w a sc st i).2 = st.2 ++ [f.1] ∧
      f.1.wpos = (i : Int) - (w : Int) + 1 := by
  by_cases hns : hashBwd h seq seqRev k a i = hashFwd h seq k i
  · rw [minimizerStep_sym h seq seqRev k w a sc st i hns] at hchange
    exact absurd rfl hchange
  · rw [minimizerStep_nonsym h seq seqRev k w a sc st i hns] at hchange ⊢
    by_cases hwin : 0 ≤ (i : Int) - (w : Int) + 1
    · rw [if_pos hwin] at hchange ⊢
      obtain ⟨f0, rest0, hQ3⟩ :=
        append_singleton_cons
          (evictBack (canonHash h seq seqRev k a i) (evictFront i w st.1))
          ((⟨canonHash h seq seqRev k a i, sc, 0, canonStrand h seq seqRev k a i⟩, i) : QEntry)
      rw [hQ3] at hchange ⊢
      rcases emitStep_cases ((i : Int) - (w : Int) + 1) st.2 f0 rest0 with
        ⟨hemit, _⟩ | ⟨hsupp, _⟩
      · exact ⟨({ f0.1 with wpos := (i : Int) - (w : Int) + 1 }, f0.2), rest0,
          by rw [hemit], by rw [hemit], rfl⟩
      · rw [hsupp] at hchange
        exact absurd rfl hchange
    · rw [if_neg hwin] at hchange
      exact absurd rfl hchange

/-- Witness for C3 (amended): position 0 of sequence A (reverse complement
T), k = w = 1, nucleotide alphabet, starting from the empty state; the step
emits and the appended record is the finalized queue front. -/
theorem minimizerStep_finalizes_front_witness :
    (minimizerStep demoHash ['A'] ['T'] 1 1 4 0 ([], []) 0).2 ≠ [] ∧
    (∃ f rest,
      (minimizerStep demoHash ['A'] ['T'] 1 1 4 0 ([], []) 0).1 = f :: rest ∧
      (minimizerStep demoHash ['A'] ['T'] 1 1 4 0 ([], []) 0).2 = [] ++ [f.1] ∧
      f.1.wpos = ((0 : Nat) : Int) - ((1 : Nat) : Int) + 1) :=
  ⟨by decide, minimizerStep_finalizes_front demoHash ['A'] ['T'] 1 1 4 0 ([], []) 0 (by decide)⟩

/-- Counterexample to C3 as stated: scanning sequence AC (reverse
complement GT) with k = 1, w = 1, nucleotide alphabet, the emission at
window 1 leaves the deque's stored front with windowPosition 1, not the
unset sentinel 0, and the emitted copy in the index is that same finalized
record. -/
theorem minimizerStep_finalizes_front_counterexample :
    (minimizerScan demoHash ['A', 'C'] ['G', 'T'] 1 1 4 0 [] 2).1 =
      [(⟨67, 0, 1, Strand.FWD⟩, 1)] ∧
    (minimizerScan demoHash ['A', 'C'] ['G', 'T'] 1 1 4 0 [] 2).2 =
      [⟨65, 0, 0, Strand.FWD⟩, ⟨67, 0, 1, Strand.FWD⟩] := by
  constructor
  · decide
  · decide

/-! ### C4: symmetric k-mers are skipped entirely -/

/-- C4: at a position whose forward hash equals its backward hash the loop
body leaves the whole state unchanged: the deque is not modified (no front
or back eviction, no push) and nothing is appended to the index. -/
theorem symmetric_position_skipped (h : List Char → Nat)
    (seq seqRev : List Char) (k w a : Nat) (sc : Int) (st : QState) (i : Nat)
    (hsym : hashBwd h seq seqRev k a i = hashFwd h seq k i) :
    (minimizerStep h seq seqRev k w a sc st i).1 = st.1 ∧
    (minimizerStep h seq seqRev k w a sc st i).2 = st.2 := by
  rw [minimizerStep_sym h seq seqRev k w a sc st i hsym]
  exact ⟨rfl, rfl⟩

/-- Witness for C4: the k-mer ACGT at position 0 is its own reverse
complement, so forward and backward hashes coincide for any hasher and the
position is skipped, leaving a nonempty prior state untouched. -/
theorem symmetric_position_skipped_witness :
    hashBwd demoHash ['A', 'C', 'G', 'T'] ['A', 'C', 'G', 'T'] 4 4 0 =
      hashFwd demoHash ['A', 'C', 'G', 'T'] 4 0 ∧
    ((minimizerStep demoHash ['A', 'C', 'G', 'T'] ['A', 'C', 'G', 'T'] 4 1 4 0
        ([(⟨5, 0, 0, Strand.REV⟩, 0)], [⟨9, 0, 0, Strand.FWD⟩]) 0).1 =
      [(⟨5, 0, 0, Strand.REV⟩, 0)] ∧
    (minimizerStep demoHash ['A', 'C', 'G', 'T'] ['A', 'C', 'G', 'T'] 4 1 4 0
        ([(⟨5, 0, 0, Strand.REV⟩, 0)], [⟨9, 0, 0, Strand.FWD⟩]) 0).2 =
      [⟨9, 0, 0, Strand.FWD⟩]) :=
  ⟨by decide, symmetric_position_skipped demoHash ['A', 'C', 'G', 'T']
    ['A', 'C', 'G', 'T'] 4 1 4 0 ([(⟨5, 0, 0, Strand.REV⟩, 0)], [⟨9, 0, 0, Strand.FWD⟩]) 0
    (by decide)⟩

/-! ### C6: reverseComplement is an involution on ACGT strings -/

theorem complementBase_involution (c : Char) :
    complementBase (complementBase c) = c := by
  by_cases hA : c = 'A'
  · subst hA; decide
  by_cases hC : c = 'C'
  · subst hC; decide
  by_cases hG : c = 'G'
  · subst hG; decide
  by_cases hT : c = 'T'
  · subst hT; decide
  have hfix : complementBase c = c := by
    unfold complementBase
    rw [if_neg hA, if_neg hC, if_neg hG, if_neg hT]
  rw [hfix, hfix]

/-- C6: applying reverseComplement twice to any string over the alphabet
A, C, G, T returns the original string. -/
theorem reverseComplement_involution (s : List Char)
    (_hs : ∀ c ∈ s, c = 'A' ∨ c = 'C' ∨ c = 'G' ∨ c = 'T') :
    reverseComplement (reverseComplement s) = s := by
  unfold reverseComplement
  rw [List.map_reverse, List.reverse_reverse, List.map_map]
  have hcomp : complementBase ∘ complementBase = id := funext complementBase_involution
  rw [hcomp, List.map_id]

/-- Witness for C6 at the concrete string ACGT. -/
theorem reverseComplement_involution_witness :
    (∀ c ∈ ['A', 'C', 'G', 'T'], c = 'A' ∨ c = 'C' ∨ c = 'G' ∨ c = 'T') ∧
    reverseComplement (reverseComplement ['A', 'C', 'G', 'T']) = ['A', 'C', 'G', 'T'] :=
  ⟨by decide, reverseComplement_involution ['A', 'C', 'G', 'T'] (by decide)⟩

/-! ### C7: case-insensitivity of addMinimizers -/

theorem makeUpperCaseChar_idem (c : Char) :
    makeUpperCaseChar (makeUpperCaseChar c) = makeUpperCaseChar c := by
  unfold makeUpperCaseChar
  by_cases hc : 96 < c.toNat ∧ c.toNat < 123
  · rw [if_pos hc]
    obtain ⟨h1, h2⟩ := hc
    generalize hn : c.toNat = n at h1 h2
    interval_cases n <;> decide
  · rw [if_neg hc, if_neg hc]

/-- Two bytes differ only in ASCII case: they are equal, or one is the
lowercase letter whose uppercase form (32 subtracted) is the other. -/
def caseRel (c d : Char) : Prop :=
  c = d ∨ d = makeUpperCaseChar c ∨ c = makeUpperCaseChar d

instance : DecidableRel caseRel := by
  intro c d
  unfold caseRel
  infer_instance

theorem makeUpperCaseChar_eq_of_caseRel (c d : Char) (hcd : caseRel c d) :
    makeUpperCaseChar c = makeUpperCaseChar d := by
  rcases hcd with rfl | rfl | rfl
  · rfl
  · rw [makeUpperCaseChar_idem]
  · rw [makeUpperCaseChar_idem]

theorem makeUpperCase_eq_of_caseRel (s1 s2 : List Char)
    (hcase : List.Forall₂ caseRel s1 s2) :
    makeUpperCase s1 = makeUpperCase s2 := by
  induction hcase with
  | nil => rfl
  | cons hcd _ ih =>
    unfold makeUpperCase at ih ⊢
    rw [List.map_cons, List.map_cons, ih, makeUpperCaseChar_eq_of_caseRel _ _ hcd]

/-- C7: two buffers that differ only in ASCII letter case produce identical
record sequences under addMinimizers with the same parameters. -/
theorem addMinimizers_case_insensitive (h : List Char → Nat)
    (idx0 : List MinimizerInfo) (s1 s2 : List Char) (k w a : Nat) (sc : Int)
    (hcase : List.Forall₂ caseRel s1 s2) :
    addMinimizers h idx0 s1 k w a sc = addMinimizers h idx0 s2 k w a sc := by
  unfold addMinimizers
  rw [makeUpperCase_eq_of_caseRel s1 s2 hcase]

/-- Witness for C7: acgt and ACGT as concrete buffers, yielding the very
same appended records (and hence identical minimizer hashes). -/
theorem addMinimizers_case_insensitive_witness :
    List.Forall₂ caseRel ['a', 'c', 'g', 't'] ['A', 'C', 'G', 'T'] ∧
    addMinimizers demoHash [] ['a', 'c', 'g', 't'] 3 1 4 0 =
      addMinimizers demoHash [] ['A', 'C', 'G', 'T'] 3 1 4 0 :=
  ⟨by decide, addMinimizers_case_insensitive demoHash [] ['a', 'c', 'g', 't']
    ['A', 'C', 'G', 'T'] 3 1 4 0 (by decide)⟩

/-! ### C8: too-short inputs yield an empty contribution -/

theorem addMinimizers_eq_scan (h : List Char → Nat) (idx0 : List MinimizerInfo)
    (seq : List Char) (k w a : Nat) (sc : Int) :
    addMinimizers h idx0 seq k w a sc =
      (minimizerScan h (makeUpperCase seq)
        (if a = 4 then reverseComplement (makeUpperCase seq)
         else List.replicate (makeUpperCase seq).length 'N') k w a sc idx0
        (numPositions (makeUpperCase seq).length k)).2 := rfl

theorem minimizerStep_invalid_window (h : List Char → Nat) (seq seqRev : List Char)
    (k w a : Nat) (sc : Int) (st : QState) (i : Nat)
    (hwin : ¬ 0 ≤ (i : Int) - (w : Int) + 1) :
    (minimizerStep h seq seqRev k w a sc st i).2 = st.2 := by
  by_cases hns : hashBwd h seq seqRev k a i = hashFwd h seq k i
  · rw [minimizerStep_sym h seq seqRev k w a sc st i hns]
  · rw [minimizerStep_nonsym h seq seqRev k w a sc st i hns, if_neg hwin]

theorem minimizerScan_idx_of_no_valid_window (h : List Char → Nat)
    (seq seqRev : List Char) (k w a : Nat) (sc : Int) (idx0 : List MinimizerInfo)
    (n : Nat) (hall : ∀ i : Nat, i < n → ¬ 0 ≤ (i : Int) - (w : Int) + 1) :
    (minimizerScan h seq seqRev k w a sc idx0 n).2 = idx0 := by
  induction n with
  | zero => rw [minimizerScan_zero]
  | succ n ih =>
    rw [minimizerScan_succ,
      minimizerStep_invalid_window h seq seqRev k w a sc _ n (hall n (Nat.lt_succ_self n))]
    exact ih (fun i hi => hall i (Nat.lt_succ_of_lt hi))

theorem makeUpperCase_length (seq : List Char) :
    (makeUpperCase seq).length = seq.length := by
  unfold makeUpperCase
  rw [List.length_map]

/-- C8: for an input shorter than k + w - 1 characters (in particular for
an input shorter than k), addMinimizers appends nothing to the index and
returns it unchanged; there is no error state. -/
theorem addMinimizers_short_input (h : List Char → Nat) (idx0 : List MinimizerInfo)
    (seq : List Char) (k w a : Nat) (sc : Int) (_hk : 1 ≤ k) (_hw : 1 ≤ w)
    (hshort : seq.length < k + w - 1) :
    addMinimizers h idx0 seq k w a sc = idx0 := by
  rw [addMinimizers_eq_scan]
  refine minimizerScan_idx_of_no_valid_window h _ _ k w a sc idx0 _ ?_
  intro i hi
  rw [makeUpperCase_length] at hi
  unfold numPositions at hi
  omega

/-- Witness for C8: a 3-character sequence with k = 3 and w = 2 (window
never valid) leaves a nonempty caller index untouched. -/
theorem addMinimizers_short_input_witness :
    1 ≤ 3 ∧ 1 ≤ 2 ∧ (['A', 'C', 'G'] : List Char).length < 3 + 2 - 1 ∧
    addMinimizers demoHash [⟨7, 1, 0, Strand.REV⟩] ['A', 'C', 'G'] 3 2 4 5 =
      [⟨7, 1, 0, Strand.REV⟩] :=
  ⟨by decide, by decide, by decide,
    addMinimizers_short_input demoHash [⟨7, 1, 0, Strand.REV⟩] ['A', 'C', 'G']
      3 2 4 5 (by decide) (by decide) (by decide)⟩

/-! ### C9: number of scanned positions and of valid windows -/

theorem filter_range_window_count (n wN : Nat) (hw : 1 ≤ wN) :
    ((List.range n).filter (fun i : Nat => decide (0 ≤ (i : Int) - (wN : Int) + 1))).length =
      n + 1 - wN := by
  induction n with
  | zero =>
    simp only [List.range_zero, List.filter_nil, List.length_nil]
    omega
  | succ n ih =>
    rw [List.range_succ, List.filter_append, List.length_append, ih]
    by_cases hcond : 0 ≤ (n : Int) - (wN : Int) + 1
    · simp [List.filter_cons, List.filter_nil, hcond]
      omega
    · simp [List.filter_cons, List.filter_nil, hcond]
      omega

/-- C9: with k ≥ 1 and w ≥ 1, the loop of addMinimizers scans exactly
max(0, L - k + 1) candidate positions, and exactly max(0, L - k - w + 2) of
them carry a valid window id (currentWindowId at least 0). -/
theorem addMinimizers_scan_counts (L k w : Nat) (_hk : 1 ≤ k) (hw : 1 ≤ w) :
    ((numPositions L k : Nat) : Int) = max ((L : Int) - (k : Int) + 1) 0 ∧
    ((numValidWindows L k w : Nat) : Int) = max ((L : Int) - (k : Int) - (w : Int) + 2) 0 := by
  constructor
  · unfold numPositions
    rcases le_total ((L : Int) - (k : Int) + 1) 0 with hle | hle
    · rw [max_eq_right hle]
      omega
    · rw [max_eq_left hle]
      omega
  · unfold numValidWindows
    rw [filter_range_window_count _ w hw]
    unfold numPositions
    rcases le_total ((L : Int) - (k : Int) - (w : Int) + 2) 0 with hle | hle
    · rw [max_eq_right hle]
      omega
    · rw [max_eq_left hle]
      omega

/-! ### C5: protein mode -/

theorem getHash_le_hashMax (h : List Char → Nat) (s : List Char) :
    getHash h s ≤ hashMax := by
  unfold getHash hashMax
  have hlt : h s % 2 ^ 64 < 2 ^ 64 := Nat.mod_lt _ (by norm_num)
  omega

theorem hashBwd_protein (h : List Char → Nat) (seq seqRev : List Char)
    (k a i : Nat) (ha : a ≠ 4) :
    hashBwd h seq seqRev k a i = hashMax := by
  unfold hashBwd
  rw [if_neg ha]

theorem minimizerStep_protein_rev_irrel (h : List Char → Nat) (seq seqRev1 seqRev2 : List Char)
    (k w a : Nat) (sc : Int) (st : QState) (i : Nat) (ha : a ≠ 4) :
    minimizerStep h seq seqRev1 k w a sc st i = minimizerStep h seq seqRev2 k w a sc st i := by
  have hb : ∀ rev : List Char, hashBwd h seq rev k a i = hashMax := fun rev =>
    hashBwd_protein h seq rev k a i ha
  have hc : ∀ rev : List Char, canonHash h seq rev k a i = min (hashFwd h seq k i) hashMax := by
    intro rev
    unfold canonHash
    rw [hb rev]
  have hstr : ∀ rev : List Char, canonStrand h seq rev k a i =
      (if hashFwd h seq k i < hashMax then Strand.FWD else Strand.REV) := by
    intro rev
    unfold canonStrand
    rw [hb rev]
  by_cases hsym : hashMax = hashFwd h seq k i
  · rw [minimizerStep_sym h seq seqRev1 k w a sc st i (by rw [hb]; exact hsym),
      minimizerStep_sym h seq seqRev2 k w a sc st i (by rw [hb]; exact hsym)]
  · rw [minimizerStep_nonsym h seq seqRev1 k w a sc st i (by rw [hb]; exact hsym),
      minimizerStep_nonsym h seq seqRev2 k w a sc st i (by rw [hb]; exact hsym),
      hc seqRev1, hc seqRev2, hstr seqRev1, hstr seqRev2]

theorem minimizerScan_protein_rev_irrel (h : List Char → Nat)
    (seq seqRev1 seqRev2 : List Char) (k w a : Nat) (sc : Int)
    (idx0 : List MinimizerInfo) (n : Nat) (ha : a ≠ 4) :
    minimizerScan h seq seqRev1 k w a sc idx0 n =
      minimizerScan h seq seqRev2 k w a sc idx0 n := by
  induction n with
  | zero => rw [minimizerScan_zero, minimizerScan_zero]
  | succ n ih =>
    rw [minimizerScan_succ, minimizerScan_succ, ih,
      minimizerStep_protein_rev_irrel h seq seqRev1 seqRev2 k w a sc _ n ha]

theorem minimizerStep_protein_push (h : List Char → Nat) (seq seqRev : List Char)
    (k w a : Nat) (sc : Int) (st : QState) (i : Nat) (ha : a ≠ 4)
    (hne : hashFwd h seq k i ≠ hashMax) :
    ∃ p : QEntry, ((minimizerStep h seq seqRev k w a sc st i).1).getLast? = some p ∧
      p.2 = i ∧ p.1.hash = hashFwd h seq k i ∧ p.1.strand = Strand.FWD := by
  have hns : hashBwd h seq seqRev k a i ≠ hashFwd h seq k i := by
    rw [hashBwd_protein h seq seqRev k a i ha]
    exact Ne.symm hne
  have hck : canonHash h seq seqRev k a i = hashFwd h seq k i := by
    unfold canonHash
    rw [hashBwd_protein h seq seqRev k a i ha]
    exact min_eq_left (getHash_le_hashMax h _)
  have hle : hashFwd h seq k i ≤ hashMax := getHash_le_hashMax h _
  have hcs : canonStrand h seq seqRev k a i = Strand.FWD := by
    unfold canonStrand
    rw [hashBwd_protein h seq seqRev k a i ha, if_pos (lt_of_le_of_ne hle hne)]
  rw [minimizerStep_nonsym h seq seqRev k w a sc st i hns]
  by_cases hwin : 0 ≤ (i : Int) - (w : Int) + 1
  · rw [if_pos hwin]
    cases hq2 : evictBack (canonHash h seq seqRev k a i) (evictFront i w st.1) with
    | nil =>
      rw [List.nil_append]
      rcases emitStep_cases ((i : Int) - (w : Int) + 1) st.2
          ((⟨canonHash h seq seqRev k a i, sc, 0, canonStrand h seq seqRev k a i⟩, i) : QEntry)
          [] with ⟨hemit, _⟩ | ⟨hsupp, _⟩
      · rw [hemit]
        exact ⟨_, rfl, rfl, by simpa using hck, by simpa using hcs⟩
      · rw [hsupp]
        exact ⟨_, rfl, rfl, by simpa using hck, by simpa using hcs⟩
    | cons x t =>
      rcases emitStep_cases ((i : Int) - (w : Int) + 1) st.2 x
          (t ++ [(⟨canonHash h seq seqRev k a i, sc, 0, canonStrand h seq seqRev k a i⟩, i)])
          with ⟨hemit, _⟩ | ⟨hsupp, _⟩
      · rw [List.cons_append, hemit]
        rw [← List.cons_append, List.getLast?_concat]
        exact ⟨_, rfl, rfl, by simpa using hck, by simpa using hcs⟩
      · rw [List.cons_append, hsupp]
        rw [← List.cons_append, List.getLast?_concat]
        exact ⟨_, rfl, rfl, by simpa using hck, by simpa using hcs⟩
  · rw [if_neg hwin]
    rw [List.getLast?_concat]
    exact ⟨_, rfl, rfl, by simpa using hck, by simpa using hcs⟩

theorem minimizerScan_protein_fwd (h : List Char → Nat) (seq seqRev : List Char)
    (k w a : Nat) (sc : Int) (idx0 : List MinimizerInfo) (n : Nat) (ha : a ≠ 4) :
    (∀ p ∈ (minimizerScan h seq seqRev k w a sc idx0 n).1, p.1.strand = Strand.FWD) ∧
    (∃ app, (minimizerScan h seq seqRev k w a sc idx0 n).2 = idx0 ++ app ∧
      ∀ r ∈ app, r.strand = Strand.FWD) := by
  induction n with
  | zero =>
    rw [minimizerScan_zero]
    exact ⟨fun p hp => absurd hp (List.not_mem_nil p), [], by rw [List.append_nil], fun r hr => absurd hr (List.not_mem_nil r)⟩
  | succ n ih =>
    obtain ⟨hQ, app, happ, hfwd⟩ := ih
    rw [minimizerScan_succ]
    by_cases hsym : hashBwd h seq seqRev k a n = hashFwd h seq k n
    · rw [minimizerStep_sym h seq seqRev k w a sc _ n hsym]
      exact ⟨hQ, app, happ, hfwd⟩
    · have hcs : canonStrand h seq seqRev k a n = Strand.FWD := by
        unfold canonStrand
        rw [hashBwd_protein h seq seqRev k a n ha]
        refine if_pos (lt_of_le_of_ne (getHash_le_hashMax h _) ?_)
        intro hc
        rw [hashBwd_protein h seq seqRev k a n ha] at hsym
        exact hsym hc.symm
      have hQ3fwd : ∀ p ∈ (evictBack (canonHash h seq seqRev k a n)
          (evictFront n w (minimizerScan h seq seqRev k w a sc idx0 n).1) ++
          [(⟨canonHash h seq seqRev k a n, sc, 0, canonStrand h seq seqRev k a n⟩, n)]),
          p.1.strand = Strand.FWD := by
        intro p hp
        rw [List.mem_append] at hp
        rcases hp with hp | hp
        · exact hQ p (mem_of_mem_dropWhile (mem_of_mem_dropLastWhile hp))
        · rw [List.mem_singleton] at hp
          subst hp
          exact hcs
      rw [minimizerStep_nonsym h seq seqRev k w a sc _ n hsym]
      by_cases hwin : 0 ≤ (n : Int) - (w : Int) + 1
      · rw [if_pos hwin]
        obtain ⟨f0, rest0, hQ3⟩ := append_singleton_cons
          (evictBack (canonHash h seq seqRev k a n)
            (evictFront n w (minimizerScan h seq seqRev k w a sc idx0 n).1))
          ((⟨canonHash h seq seqRev k a n, sc, 0, canonStrand h seq seqRev k a n⟩, n) : QEntry)
        have hf0 : f0.1.strand = Strand.FWD := hQ3fwd f0 (by rw [hQ3]; exact List.mem_cons_self _ _)
        have hrest : ∀ q ∈ rest0, q.1.strand = Strand.FWD := fun q hq =>
          hQ3fwd q (by rw [hQ3]; exact List.mem_cons_of_mem _ hq)
        rw [hQ3]
        rcases emitStep_cases ((n : Int) - (w : Int) + 1) _ f0 rest0 with
          ⟨hemit, _⟩ | ⟨hsupp, _⟩
        · rw [hemit]
          refine ⟨?_, app ++ [{ f0.1 with wpos := (n : Int) - (w : Int) + 1 }], ?_, ?_⟩
          · intro p hp
            rcases List.mem_cons.mp hp with rfl | hp'
            · exact hf0
            · exact hrest p hp'
          · rw [happ, List.append_assoc]
          · intro r hr
            rcases List.mem_append.mp hr with hr | hr
            · exact hfwd r hr
            · rw [List.mem_singleton] at hr
              subst hr
              exact hf0
        · rw [hsupp]
          refine ⟨?_, app, happ, hfwd⟩
          intro p hp
          rcases List.mem_cons.mp hp with rfl | hp'
          · exact hf0
          · exact hrest p hp'
      · rw [if_neg hwin]
        exact ⟨hQ3fwd, app, happ, hfwd⟩

/-- C5 (amended): with alphabet size not 4 the backward hash is the
sentinel maximum hash value and is never chosen as canonical, so: the scan
result never depends on the contents of the reverse-complement buffer;
every position whose forward hash differs from the sentinel pushes a
candidate carrying the forward hash and Forward strand; and every record
appended to the index has Forward strand.  (A position whose forward hash
equals the sentinel is skipped, so the unconditional claim fails; see the
counterexample.) -/
theorem addMinimizers_protein_mode (h : List Char → Nat) (k w a : Nat) (sc : Int)
    (ha : a ≠ 4) :
    (∀ seq seqRev1 seqRev2 idx0 n,
      minimizerScan h seq seqRev1 k w a sc idx0 n =
        minimizerScan h seq seqRev2 k w a sc idx0 n) ∧
    (∀ seq seqRev : List Char, ∀ st : QState, ∀ i : Nat,
      hashFwd h seq k i ≠ hashMax →
      ∃ p : QEntry, ((minimizerStep h seq seqRev k w a sc st i).1).getLast? = some p ∧
        p.2 = i ∧ p.1.hash = hashFwd h seq k i ∧ p.1.strand = Strand.FWD) ∧
    (∀ seq seqRev idx0 n,
      ∃ app, (minimizerScan h seq seqRev k w a sc idx0 n).2 = idx0 ++ app ∧
        ∀ r ∈ app, r.strand = Strand.FWD) ∧
    (∀ seq idx0, ∀ seqRevAny : List Char,
      addMinimizers h idx0 seq k w a sc =
        (minimizerScan h (makeUpperCase seq) seqRevAny k w a sc idx0
          (numPositions (makeUpperCase seq).length k)).2) := by
  refine ⟨?_, ?_, ?_, ?_⟩
  · intro seq seqRev1 seqRev2 idx0 n
    exact minimizerScan_protein_rev_irrel h seq seqRev1 seqRev2 k w a sc idx0 n ha
  · intro seq seqRev st i hne
    exact minimizerStep_protein_push h seq seqRev k w a sc st i ha hne
  · intro seq seqRev idx0 n
    exact (minimizerScan_protein_fwd h seq seqRev k w a sc idx0 n ha).2
  · intro seq idx0 seqRevAny
    rw [addMinimizers_eq_scan]
    rw [if_neg ha]
    rw [minimizerScan_protein_rev_irrel h (makeUpperCase seq)
      (List.replicate (makeUpperCase seq).length 'N') seqRevAny k w a sc idx0 _ ha]

/-- Witness for C5 (amended) at alphabet size 20, k = w = 1. -/
theorem addMinimizers_protein_mode_witness :
    (20 ≠ 4) ∧
    ((∀ seq seqRev1 seqRev2 idx0 n,
      minimizerScan demoHash seq seqRev1 1 1 20 0 idx0 n =
        minimizerScan demoHash seq seqRev2 1 1 20 0 idx0 n) ∧
    (∀ seq seqRev : List Char, ∀ st : QState, ∀ i : Nat,
      hashFwd demoHash seq 1 i ≠ hashMax →
      ∃ p : QEntry, ((minimizerStep demoHash seq seqRev 1 1 20 0 st i).1).getLast? = some p ∧
        p.2 = i ∧ p.1.hash = hashFwd demoHash seq 1 i ∧ p.1.strand = Strand.FWD) ∧
    (∀ seq seqRev idx0 n,
      ∃ app, (minimizerScan demoHash seq seqRev 1 1 20 0 idx0 n).2 = idx0 ++ app ∧
        ∀ r ∈ app, r.strand = Strand.FWD) ∧
    (∀ seq idx0, ∀ seqRevAny : List Char,
      addMinimizers demoHash idx0 seq 1 1 20 0 =
        (minimizerScan demoHash (makeUpperCase seq) seqRevAny 1 1 20 0 idx0
          (numPositions (makeUpperCase seq).length 1)).2)) :=
  ⟨by decide, addMinimizers_protein_mode demoHash 1 1 20 0 (by decide)⟩

/-- Counterexample to C5 as stated: with a deterministic hasher that
attains the maximum representable value, in protein mode the forward hash
equals the sentinel backward hash at every position, so every position is
skipped and no candidate is formed at all, even though a valid window
exists: the output is empty instead of one Forward record per window. -/
theorem addMinimizers_protein_mode_counterexample :
    addMinimizers maxConstHash [] ['A'] 1 1 20 0 = [] ∧
    numValidWindows 1 1 1 = 1 := by
  constructor
  · decide
  · decide

/-! ### C10: getReferenceSize -/

theorem getReferenceSize_foldl (fs : String → Option Nat) (l : List String)
    (acc : Nat) :
    l.foldl (fun count f => (count + castU64 (tellgResult fs f)) % 2 ^ 64) (acc % 2 ^ 64) =
      (acc + (l.map (fun f => castU64 (tellgResult fs f))).sum) % 2 ^ 64 := by
  induction l generalizing acc with
  | nil => rw [List.foldl_nil, List.map_nil, List.sum_nil, Nat.add_zero]
  | cons f t ih =>
    rw [List.foldl_cons, List.map_cons, List.sum_cons, Nat.mod_add_mod,
      ih (acc + castU64 (tellgResult fs f)), Nat.add_assoc]

/-- C10: getReferenceSize returns the wrapping 64-bit sum of the reported
end offsets converted to uint64_t, and a path that fails to open makes
tellg report -1, which converts to 2^64 - 1 (not 0); a successful path of
size n contributes n modulo 2^64. -/
theorem getReferenceSize_spec (fs : String → Option Nat) (l : List String) :
    getReferenceSize fs l =
      ((l.map (fun f => castU64 (tellgResult fs f))).sum) % 2 ^ 64 ∧
    (∀ f, fs f = none → tellgResult fs f = -1 ∧
      castU64 (tellgResult fs f) = 2 ^ 64 - 1) ∧
    (∀ f n, fs f = some n → castU64 (tellgResult fs f) = n % 2 ^ 64) := by
  refine ⟨?_, ?_, ?_⟩
  · unfold getReferenceSize
    have h0 : (0 : Nat) = 0 % 2 ^ 64 := by norm_num
    rw [h0, getReferenceSize_foldl fs l 0, Nat.zero_add]
  · intro f hf
    unfold tellgResult castU64
    rw [hf]
    have hI : (2 : Int) ^ 64 = 18446744073709551616 := by norm_num
    have hN : (2 : Nat) ^ 64 = 18446744073709551616 := by norm_num
    constructor
    · rfl
    · rw [hI, hN]
      decide
  · intro f n hf
    unfold tellgResult castU64
    rw [hf]
    have hI : (2 : Int) ^ 64 = 18446744073709551616 := by norm_num
    have hN : (2 : Nat) ^ 64 = 18446744073709551616 := by norm_num
    rw [hI, hN]
    norm_cast

/-- A concrete filesystem for the C10 witness: path x opens with end offset
5, every other path fails to open. -/
def demoFs (s : String) : Option Nat :=
  if s = "x" then some 5 else none

/-- Witness for C10 on a concrete filesystem with one readable and one
unreadable path. -/
theorem getReferenceSize_spec_witness :
    getReferenceSize demoFs ["x", "y"] =
      ((["x", "y"].map (fun f => castU64 (tellgResult demoFs f))).sum) % 2 ^ 64 ∧
    (∀ f, demoFs f = none → tellgResult demoFs f = -1 ∧
      castU64 (tellgResult demoFs f) = 2 ^ 64 - 1) ∧
    (∀ f n, demoFs f = some n → castU64 (tellgResult demoFs f) = n % 2 ^ 64) :=
  getReferenceSize_spec demoFs ["x", "y"]

/-- Witness for C9 at L = 10, k = 3, w = 4. -/
theorem addMinimizers_scan_counts_witness :
    1 ≤ 3 ∧ 1 ≤ 4 ∧
    ((numPositions 10 3 : Nat) : Int) = max (((10 : Nat) : Int) - ((3 : Nat) : Int) + 1) 0 ∧
    ((numValidWindows 10 3 4 : Nat) : Int) =
      max (((10 : Nat) : Int) - ((3 : Nat) : Int) - ((4 : Nat) : Int) + 2) 0 :=
  ⟨by decide, by decide,
    (addMinimizers_scan_counts 10 3 4 (by decide) (by decide)).1,
    (addMinimizers_scan_counts 10 3 4 (by decide) (by decide)).2⟩

end Skch
